import Mathlib

/-!
Verification development for the `less_2_task` infix-to-RPN calculator
(`src/main.rs`).  The computational pipeline — lexer (`tokerize`),
operator table (`KNOWNS_OPERATORS` / `get_op_info` /
`need_op_pop_from_stack`), shunting-yard converter (`convert_to_rpn`)
and RPN evaluator (`calc_and_print`, `calc_binary_operator`,
`calc_unary_operator`) together with the driver `process` — is shallowly
embedded below.  Strings are modelled as `List Char`; the `less_2_task`
crate's `Stack`/`Queue` containers (whose code is not in `src/`) are
modelled from the spec as plain LIFO/FIFO lists.  Rust panics
(`unwrap` failures) are modelled by the `crash` outcome.  The source's
`f32` arithmetic is modelled by the type `F`: a finite value is an exact
rational, and the IEEE special values `inf`, `-inf` and `NaN` are carried
explicitly, with the IEEE rules for producing them (division by zero,
`inf - inf`, `inf * 0`) and for propagating them through arithmetic,
formatting (Rust's two-decimal format specifier renders non-finite
floats as `inf`, `-inf`, `NaN` with no fractional digits), parsing and
the saturating `as i32` cast.  All structural theorems are independent
of this choice, and the concrete finite numeric instances proved below
are instances on which `f32` and exact rational arithmetic agree.
-/

set_option maxRecDepth 4000

namespace Less2Task

/-- Kinds of tokens, mirroring the `TokenType` enum of `src/main.rs`. -/
inductive TokenType
  | NumberInt
  | NumberFloat
  | UnaryOperator
  | BinaryOperator
  | Function
  | OpenedParenthesis
  | ClosedParenthesis
  | ArgumentSeparator
  | Whitespaces
  deriving DecidableEq, Repr

/-- A lexeme: the literal source substring, modelled as a list of characters. -/
abbrev Lexeme := List Char

/-- A token is a pair (kind, lexeme), mirroring `type Token = (TokenType, String)`. -/
abbrev Token := TokenType × Lexeme

/-- Operator associativity, mirroring `OperatorAssociation` (including the
source's spelling of its second constructor). -/
inductive OperatorAssociation
  | LeftAssociation
  | RightAssociatoin
  deriving DecidableEq, Repr

/-- Outcome of a Rust computation: `crash` models a panic (an `unwrap`
failure), `err` a returned `Err`, `ok` a returned `Ok`. -/
inductive PRes (ε α : Type) where
  | crash
  | err (e : ε)
  | ok (a : α)
  deriving DecidableEq, Repr

/-- The static operator table `KNOWNS_OPERATORS` of `src/main.rs`:
(symbol, precedence rank, associativity); lower rank binds tighter. -/
def KNOWNS_OPERATORS : List (Lexeme × Nat × OperatorAssociation) :=
  [ (['P','O','S'], 1, .RightAssociatoin),
    (['N','E','G'], 1, .RightAssociatoin),
    (['/'], 2, .LeftAssociation),
    (['*'], 2, .LeftAssociation),
    (['%'], 2, .LeftAssociation),
    (['+'], 3, .LeftAssociation),
    (['-'], 3, .LeftAssociation),
    (['<','<'], 4, .LeftAssociation),
    (['>','>'], 4, .LeftAssociation) ]

/-- Linear search through the operator table (the `for` loop of `get_op_info`). -/
def lookupOp : List (Lexeme × Nat × OperatorAssociation) → Lexeme →
    Option (Nat × OperatorAssociation)
  | [], _ => none
  | (sym, r, a) :: rest, op => if op = sym then some (r, a) else lookupOp rest op

/-- `get_op_info` of `src/main.rs`: look an operator up in `KNOWNS_OPERATORS`. -/
def get_op_info (op : Lexeme) : Option (Nat × OperatorAssociation) :=
  lookupOp KNOWNS_OPERATORS op

/-- `need_op_pop_from_stack` of `src/main.rs`.  The source unwraps both
table lookups, so an unknown operator is a panic, modelled by `none`.
Otherwise it returns whether `op2` (on the stack) must be popped before
pushing `op1`: pop when `op2`'s rank is strictly lower (binds tighter), or
the ranks are equal and `op1` is left-associative. -/
def need_op_pop_from_stack (op1 op2 : Lexeme) : Option Bool :=
  match get_op_info op1, get_op_info op2 with
  | some (r1, a1), some (r2, _) =>
      some (decide (r2 < r1 ∨ (r2 = r1 ∧ a1 = .LeftAssociation)))
  | _, _ => none

/-! ## Lexer (`tokerize`)

The Rust lexer repeatedly runs over the fixed pattern list
`KNOWNS_TOKENS`, each pattern being tried (and possibly consuming a
prefix) in order, until a full pass consumes nothing (error) or the
input is exhausted.  Each regex is anchored at the start EXCEPT the
`<<`/`>>` alternatives of the binary-operator pattern (first alternative: a single one of
plus, minus, slash, star, anchored by the caret; second and third
alternatives: `<<` and `>>`, NOT anchored, since the caret applies only
to the first alternative), so `<<` or `>>` can be found at a non-prefix
position;
`strip_prefix(..).unwrap()` then panics.  This is modelled faithfully:
`binCaptures` returns the leftmost match, and the binary step crashes
when the match is not a prefix of the remaining input. -/

/-- Whitespace test modelling the regex class `\s` (restricted to the
ASCII whitespace characters, which are the only ones arising here). -/
def isWsChar (c : Char) : Bool :=
  c = ' ' || c = '\t' || c = '\n' || c = '\r'

/-- Leftmost occurrence of `<<` or `>>` anywhere in the string (the
unanchored second and third alternatives of the binary-operator regex). -/
def find2 : List Char → Option Lexeme
  | c1 :: c2 :: rest =>
      if c1 = '<' && c2 = '<' then some ['<', '<']
      else if c1 = '>' && c2 = '>' then some ['>', '>']
      else find2 (c2 :: rest)
  | _ => none

/-- The text of the leftmost match of the binary-operator regex on `s`,
if any.  A single plus, minus, slash or star can only match at the start
(that alternative is anchored); `<<` and `>>` match anywhere. -/
def binCaptures : List Char → Option Lexeme
  | [] => none
  | c :: rest =>
      if c = '+' || c = '-' || c = '/' || c = '*' then some [c]
      else find2 (c :: rest)

/-- The `permissible_tokens` check of `tokerize`: the last emitted token
exists and is a numeric literal or a closing parenthesis. -/
def isPermissibleLast (acc : List Token) : Bool :=
  match acc.getLast? with
  | some t => t.1 = .NumberFloat || t.1 = .NumberInt || t.1 = .ClosedParenthesis
  | none => false

/-- Lexer state: tokens emitted so far and the unconsumed remainder. -/
abbrev LexState := List Token × List Char

/-- One attempt of one pattern of `KNOWNS_TOKENS` at the current position,
consuming the match (if the pattern applies) exactly as the corresponding
arm of the `for` loop in `tokerize` does.  `none` models the
`strip_prefix(..).unwrap()` panic in the binary-operator arm. -/
def lexStep : TokenType → LexState → Option LexState
  | .OpenedParenthesis, (acc, s) =>
      match s with
      | c :: rest =>
          if c = '(' then some (acc ++ [(.OpenedParenthesis, ['('])], rest)
          else some (acc, s)
      | [] => some (acc, s)
  | .ClosedParenthesis, (acc, s) =>
      match s with
      | c :: rest =>
          if c = ')' then some (acc ++ [(.ClosedParenthesis, [')'])], rest)
          else some (acc, s)
      | [] => some (acc, s)
  | .Function, (acc, s) =>
      match s.takeWhile Char.isAlpha with
      | [] => some (acc, s)
      | name => some (acc ++ [(.Function, name)], s.dropWhile Char.isAlpha)
  | .BinaryOperator, (acc, s) =>
      match binCaptures s with
      | none => some (acc, s)
      | some text =>
          if isPermissibleLast acc then
            if text.isPrefixOf s then
              some (acc ++ [(.BinaryOperator, text)], s.drop text.length)
            else none
          else some (acc, s)
  | .UnaryOperator, (acc, s) =>
      match s with
      | c :: rest =>
          if c = '+' then some (acc ++ [(.UnaryOperator, ['P','O','S'])], rest)
          else if c = '-' then some (acc ++ [(.UnaryOperator, ['N','E','G'])], rest)
          else some (acc, s)
      | [] => some (acc, s)
  | .NumberFloat, (acc, s) =>
      match s.takeWhile Char.isDigit, s.dropWhile Char.isDigit with
      | ip@(_ :: _), c :: r2 =>
          if c = '.' then
            match r2.takeWhile Char.isDigit with
            | [] => some (acc, s)
            | fp => some (acc ++ [(.NumberFloat, ip ++ '.' :: fp)], r2.dropWhile Char.isDigit)
          else some (acc, s)
      | _, _ => some (acc, s)
  | .NumberInt, (acc, s) =>
      match s.takeWhile Char.isDigit with
      | [] => some (acc, s)
      | ds => some (acc ++ [(.NumberInt, ds)], s.dropWhile Char.isDigit)
  | .ArgumentSeparator, (acc, s) =>
      match s with
      | c :: rest =>
          if c = ',' then some (acc ++ [(.ArgumentSeparator, [','])], rest)
          else some (acc, s)
      | [] => some (acc, s)
  | .Whitespaces, (acc, s) =>
      match s.takeWhile isWsChar with
      | [] => some (acc, s)
      | ws => some (acc ++ [(.Whitespaces, ws)], s.dropWhile isWsChar)

/-- The order in which `KNOWNS_TOKENS` lists its patterns. -/
def KNOWNS_TOKENS_ORDER : List TokenType :=
  [ .OpenedParenthesis, .ClosedParenthesis, .Function, .BinaryOperator,
    .UnaryOperator, .NumberFloat, .NumberInt, .ArgumentSeparator, .Whitespaces ]

/-- One full pass of the `for tok in KNOWNS_TOKENS` loop of `tokerize`. -/
def lexPass (st : LexState) : Option LexState :=
  KNOWNS_TOKENS_ORDER.foldl (fun o tt => o.bind (lexStep tt)) (some st)

/-- The outer `while` loop of `tokerize`: run passes until the input is
empty (success) or a pass consumes nothing (error carrying the first
unconsumed character).  Each productive pass strictly shortens the
input, so `fuel := length + 1` (set in `tokerize`) can never run out;
the fuel-out branch is unreachable. -/
def tokerizeLoop : Nat → LexState → PRes Char (List Token)
  | 0, _ => .crash
  | fuel + 1, (acc, s) =>
      match s with
      | [] => .ok acc
      | c :: _ =>
          match lexPass (acc, s) with
          | none => .crash
          | some (acc2, s2) =>
              if s2.length = s.length then .err c
              else tokerizeLoop fuel (acc2, s2)

/-- `tokerize` of `src/main.rs`: split the input into tokens; `err c`
carries the first character of the unconsumed remainder, `crash` models
a panic inside the scan. -/
def tokerize (s : List Char) : PRes Char (List Token) :=
  tokerizeLoop (s.length + 1) ([], s)

/-! ## Shunting-yard converter (`convert_to_rpn`)

The `less_2_task` crate's `Queue` and `Stack` are modelled from the
spec ("generic FIFO and LIFO containers over Token") as plain lists:
the queue's front and the stack's top are the list head; `enqueue`
appends at the end, `push` conses at the head.  The converter errors
are distinguished by their return site; the source renders the two
parenthesis errors with the same message (see `renderConvErr`). -/

/-- The three error returns of `convert_to_rpn`, by return site:
missing argument separator or opening parenthesis (argument-separator
case), missing parenthesis detected when a closing parenthesis empties
the stack, missing parenthesis detected when draining the stack at end
of input finds an open parenthesis. -/
inductive ConvErr
  | missingSeparator
  | missingParenClose
  | missingParenDrain
  deriving DecidableEq, Repr

/-- The literal diagnostic string the source returns for each
`convert_to_rpn` error; both parenthesis errors share one message. -/
def renderConvErr : ConvErr → String
  | .missingSeparator =>
      "в выражении пропущен разделитель аргументов функции (запятая), либо пропущена открывающая скобка"
  | .missingParenClose => "в выражении пропущена скобка"
  | .missingParenDrain => "в выражении пропущена скобка"

/-- The `while` loops of the argument-separator and closing-parenthesis
cases: pop stack entries until the top is an opening parenthesis (or the
stack empties), returning the popped entries in pop order and the rest. -/
def popToParen : List Token → List Token × List Token
  | [] => ([], [])
  | t :: rest =>
      if t.1 = TokenType.OpenedParenthesis then ([], t :: rest)
      else
        let (p, r) := popToParen rest
        (t :: p, r)

/-- The `while` loop of the operator case of `convert_to_rpn`: pop the
stack top `op2` while it is a `BinaryOperator` and
`need_op_pop_from_stack op1 op2` holds; `none` models the panic of
`need_op_pop_from_stack` on an operator missing from the table.  Returns
the popped entries in pop order and the remaining stack. -/
def popOps (op1 : Lexeme) : List Token → Option (List Token × List Token)
  | [] => some ([], [])
  | t :: rest =>
      if t.1 = TokenType.BinaryOperator then
        match need_op_pop_from_stack op1 t.2 with
        | none => none
        | some true =>
            (popOps op1 rest).map (fun pr => (t :: pr.1, pr.2))
        | some false => some ([], t :: rest)
      else some ([], t :: rest)

/-- The end-of-input drain of `convert_to_rpn`: move remaining stack
entries to the output; an opening parenthesis still on the stack is the
missing-closing-parenthesis error. -/
def drainStack : List Token → List Token → PRes ConvErr (List Token)
  | [], out => .ok out
  | t :: rest, out =>
      if t.1 = TokenType.OpenedParenthesis then .err .missingParenDrain
      else drainStack rest (out ++ [t])

/-- The `for tok in token_list` loop of `convert_to_rpn`, with the
operator stack and the output queue as explicit state. -/
def convertLoop : List Token → List Token → List Token → PRes ConvErr (List Token)
  | [], stack, out => drainStack stack out
  | tok :: rest, stack, out =>
      match tok.1 with
      | .NumberInt => convertLoop rest stack (out ++ [tok])
      | .NumberFloat => convertLoop rest stack (out ++ [tok])
      | .Function => convertLoop rest (tok :: stack) out
      | .ArgumentSeparator =>
          match popToParen stack with
          | (_, []) => .err .missingSeparator
          | (popped, st1@(_ :: _)) => convertLoop rest st1 (out ++ popped)
      | .BinaryOperator =>
          match popOps tok.2 stack with
          | none => .crash
          | some (popped, st1) => convertLoop rest (tok :: st1) (out ++ popped)
      | .UnaryOperator =>
          match popOps tok.2 stack with
          | none => .crash
          | some (popped, st1) => convertLoop rest (tok :: st1) (out ++ popped)
      | .OpenedParenthesis => convertLoop rest (tok :: stack) out
      | .ClosedParenthesis =>
          match popToParen stack with
          | (_, []) => .err .missingParenClose
          | (popped, _ :: st2) =>
              match st2 with
              | f :: st3 =>
                  if f.1 = TokenType.Function then
                    convertLoop rest st3 (out ++ popped ++ [f])
                  else convertLoop rest st2 (out ++ popped)
              | [] => convertLoop rest [] (out ++ popped)
      | .Whitespaces => convertLoop rest stack out

/-- `convert_to_rpn` of `src/main.rs`: Dijkstra's shunting-yard
conversion of the token list to an RPN queue. -/
def convert_to_rpn (token_list : List Token) : PRes ConvErr (List Token) :=
  convertLoop token_list [] []

/-! ## Numeric model

The source computes with `f32` (`parse::<f32>()`, IEEE arithmetic,
`as i32` truncating-saturating casts, `format!` with two decimal
digits).  IEEE single-precision rounding is not directly embeddable
here, so an `f32` value is modelled by `F`: either an exact finite
rational (an unnormalized integer pair `Q` with positive denominator,
so that every computation reduces in the kernel) or one of the IEEE
special values `inf`, `-inf`, `NaN`.  `parseF` parses the decimal
lexemes exactly and accepts the special forms `inf`, `-inf`, `NaN`
that `format!` produces; arithmetic is exact on finite values and
follows the IEEE special-value rules otherwise (division by zero gives
a signed infinity, `0/0` and `inf - inf` give `NaN`, ...); `format2`
renders finite values with two fractional digits, rounding half to
even as `format!` does, and renders the special values as `inf`,
`-inf`, `NaN`, which is what `format!("{:.2}", _)` prints for them.
Every concrete finite instance proved below involves only values on
which the `f32` computation and the exact computation coincide.
Known divergences of the model (affecting no theorem below): negative
zero, finite values beyond 2^24 where `f32` loses integer precision,
and exponent or case-variant `infinity`/`nan` literal forms accepted
by Rust's `parse::<f32>` but produced by no stage. -/

/-- An exact rational as an unnormalized fraction; all constructions
below keep `den` positive. -/
structure Q where
  num : Int
  den : Int
  deriving DecidableEq, Repr

/-- The rational with value the given integer. -/
def Q.ofInt (z : Int) : Q := ⟨z, 1⟩

/-- Exact addition. -/
def qAdd (x y : Q) : Q := ⟨x.num * y.den + y.num * x.den, x.den * y.den⟩

/-- Exact subtraction. -/
def qSub (x y : Q) : Q := ⟨x.num * y.den - y.num * x.den, x.den * y.den⟩

/-- Exact multiplication. -/
def qMul (x y : Q) : Q := ⟨x.num * y.num, x.den * y.den⟩

/-- Exact division by a fraction with nonzero numerator (`F.div`
handles a zero divisor separately, per IEEE), keeping the result's
denominator positive. -/
def qDiv (x y : Q) : Q :=
  let n := x.num * y.den
  let d := x.den * y.num
  if d < 0 then ⟨-n, -d⟩ else ⟨n, d⟩

/-- Negation. -/
def qNeg (x : Q) : Q := ⟨-x.num, x.den⟩

/-- Order on fractions with positive denominators. -/
def qLt (x y : Q) : Bool := x.num * y.den < y.num * x.den

/-- Floor of a fraction with positive denominator (floor division). -/
def qfloor (x : Q) : Int := Int.fdiv x.num x.den

/-- An `f32` value: an exact finite rational or an IEEE special value. -/
inductive F where
  | finite (q : Q)
  | inf
  | negInf
  | nan
  deriving DecidableEq, Repr

/-- IEEE negation. -/
def F.neg : F → F
  | .finite q => .finite (qNeg q)
  | .inf => .negInf
  | .negInf => .inf
  | .nan => .nan

/-- IEEE addition: exact on finite values; `inf + (-inf)` is `NaN`;
`NaN` propagates. -/
def F.add : F → F → F
  | .nan, _ => .nan
  | _, .nan => .nan
  | .finite x, .finite y => .finite (qAdd x y)
  | .inf, .negInf => .nan
  | .negInf, .inf => .nan
  | .inf, _ => .inf
  | _, .inf => .inf
  | .negInf, _ => .negInf
  | _, .negInf => .negInf

/-- IEEE subtraction: exact on finite values; `inf - inf` is `NaN`;
`NaN` propagates. -/
def F.sub : F → F → F
  | .nan, _ => .nan
  | _, .nan => .nan
  | .finite x, .finite y => .finite (qSub x y)
  | .inf, .inf => .nan
  | .negInf, .negInf => .nan
  | .inf, _ => .inf
  | .negInf, _ => .negInf
  | _, .inf => .negInf
  | _, .negInf => .inf

/-- IEEE multiplication: exact on finite values; `inf * 0` is `NaN`;
otherwise infinities multiply by sign; `NaN` propagates. -/
def F.mul : F → F → F
  | .nan, _ => .nan
  | _, .nan => .nan
  | .finite x, .finite y => .finite (qMul x y)
  | .inf, .inf => .inf
  | .inf, .negInf => .negInf
  | .negInf, .inf => .negInf
  | .negInf, .negInf => .inf
  | .inf, .finite q =>
      if q.num = 0 then .nan else if 0 < q.num then .inf else .negInf
  | .finite q, .inf =>
      if q.num = 0 then .nan else if 0 < q.num then .inf else .negInf
  | .negInf, .finite q =>
      if q.num = 0 then .nan else if 0 < q.num then .negInf else .inf
  | .finite q, .negInf =>
      if q.num = 0 then .nan else if 0 < q.num then .negInf else .inf

/-- IEEE division: exact on finite values with a nonzero divisor; a
nonzero finite value divided by (positive) zero is a signed infinity
and `0 / 0` is `NaN`; a finite value divided by an infinity is zero;
`inf / inf` is `NaN`; `NaN` propagates.  (The model has no negative
zero; see the section comment.) -/
def F.div : F → F → F
  | .nan, _ => .nan
  | _, .nan => .nan
  | .finite x, .finite y =>
      if y.num = 0 then
        if x.num = 0 then .nan else if 0 < x.num then .inf else .negInf
      else .finite (qDiv x y)
  | .inf, .inf => .nan
  | .inf, .negInf => .nan
  | .negInf, .inf => .nan
  | .negInf, .negInf => .nan
  | .inf, .finite q => if 0 ≤ q.num then .inf else .negInf
  | .negInf, .finite q => if 0 ≤ q.num then .negInf else .inf
  | .finite _, _ => .finite ⟨0, 1⟩

/-- Value of a digit string, most significant first. -/
def digitsToNat (ds : List Char) : Nat :=
  ds.foldl (fun n c => 10 * n + (c.toNat - 48)) 0

/-- Parse an unsigned decimal lexeme (digits, optionally a point and
more digits) to an exact rational; `none` on any other shape. -/
def parseFAbs (s : List Char) : Option Q :=
  match s.takeWhile Char.isDigit, s.dropWhile Char.isDigit with
  | [], _ => none
  | ip, [] => some (Q.ofInt (digitsToNat ip))
  | ip, '.' :: fp =>
      if fp ≠ [] ∧ fp.all Char.isDigit then
        some ⟨digitsToNat ip * 10 ^ fp.length + digitsToNat fp, 10 ^ fp.length⟩
      else none
  | _, _ => none

/-- Parse an unsigned lexeme: the special forms `inf` and `NaN` (the
ones `format!` produces and `parse::<f32>` accepts back), else an
unsigned decimal. -/
def parseFUnsigned (s : List Char) : Option F :=
  if s = ['i','n','f'] then some F.inf
  else if s = ['N','a','N'] then some F.nan
  else (parseFAbs s).map F.finite

/-- Model of `str::parse::<f32>` on the lexemes arising in this
program: an optional sign followed by an unsigned decimal or a special
form. -/
def parseF : Lexeme → Option F
  | [] => none
  | c :: rest =>
      if c = '-' then (parseFUnsigned rest).map F.neg
      else if c = '+' then parseFUnsigned rest
      else parseFUnsigned (c :: rest)

/-- Round to the nearest integer, half to even (the rounding of
`format!` with a fixed number of decimals). -/
def rhe (q : Q) : Int :=
  let f := qfloor q
  let r := qSub q (Q.ofInt f)
  if qLt r ⟨1, 2⟩ then f
  else if qLt ⟨1, 2⟩ r then f + 1
  else if f % 2 = 0 then f else f + 1

/-- Decimal digits of a natural number, most significant first; the
fuel (always sufficient at `n + 1`) keeps the recursion structural so
that it reduces in the kernel. -/
def natToDecAux : Nat → Nat → List Char
  | 0, _ => []
  | fuel + 1, n =>
      if n < 10 then [Nat.digitChar n]
      else natToDecAux fuel (n / 10) ++ [Nat.digitChar (n % 10)]

/-- Decimal digits of a natural number, most significant first. -/
def natToDec (n : Nat) : List Char := natToDecAux (n + 1) n

/-- Render a nonnegative rational with exactly two fractional digits
(integer part of the value scaled by 100, a point, then the two-digit
zero-padded remainder). -/
def format2abs (q : Q) : Lexeme :=
  natToDec ((rhe (qMul q (Q.ofInt 100))).toNat / 100) ++
    '.' :: [Nat.digitChar ((rhe (qMul q (Q.ofInt 100))).toNat / 10 % 10),
      Nat.digitChar ((rhe (qMul q (Q.ofInt 100))).toNat % 10)]

/-- Render a finite rational with exactly two fractional digits. -/
def format2Fin (q : Q) : Lexeme :=
  if q.num < 0 then '-' :: format2abs (qNeg q) else format2abs q

/-- Model of `format!` with two decimal digits (the `{0:.2}` format
used for every computed value in the source): two fractional digits
for finite values; `inf`, `-inf` and `NaN` print as themselves, the
precision being ignored for non-finite floats. -/
def format2 : F → Lexeme
  | .finite q => format2Fin q
  | .inf => ['i','n','f']
  | .negInf => ['-','i','n','f']
  | .nan => ['N','a','N']

/-- Truncate toward zero and saturate to the `i32` range: the `as i32`
cast applied to both operands of the shift operators (`inf` saturates
to the maximum, `-inf` to the minimum, `NaN` casts to zero). -/
def truncSat : F → Int
  | .finite q =>
      let t : Int := if q.num < 0 then -(qfloor (qNeg q)) else qfloor q
      if t > 2147483647 then 2147483647
      else if t < -2147483648 then -2147483648
      else t
  | .inf => 2147483647
  | .negInf => -2147483648
  | .nan => 0

/-- Wrap an integer into the `i32` range (two's complement). -/
def wrap32 (z : Int) : Int :=
  (z + 2147483648) % 4294967296 - 2147483648

/-- `calc_binary_operator` of `src/main.rs`.  Both arguments are parsed
first (a parse failure is the modelled panic, `none`); then the operator
is dispatched by its lexeme; an unknown operator yields the empty
string, exactly as the source's default arm does.  The shifts truncate
both operands to `i32` (saturating cast), shift with the shift amount
masked to five bits as Rust release builds do, and convert back. -/
def calc_binary_operator (op : Lexeme) (arg1 arg2 : Token) : Option Lexeme :=
  match parseF arg1.2, parseF arg2.2 with
  | some x, some y =>
      if op = ['+'] then some (format2 (F.add x y))
      else if op = ['-'] then some (format2 (F.sub x y))
      else if op = ['/'] then some (format2 (F.div x y))
      else if op = ['*'] then some (format2 (F.mul x y))
      else if op = ['<', '<'] then
        some (format2 (.finite (Q.ofInt (wrap32 (truncSat x * 2 ^ (truncSat y % 32).toNat)))))
      else if op = ['>', '>'] then
        some (format2 (.finite (Q.ofInt (Int.fdiv (truncSat x) (2 ^ (truncSat y % 32).toNat)))))
      else some []
  | _, _ => none

/-- `calc_unary_operator` of `src/main.rs`: `POS` is the identity, `NEG`
multiplies by minus one; an unknown operator yields the empty string. -/
def calc_unary_operator (op : Lexeme) (arg : Token) : Option Lexeme :=
  match parseF arg.2 with
  | some v =>
      if op = ['P', 'O', 'S'] then some (format2 v)
      else if op = ['N', 'E', 'G'] then some (format2 (F.mul (.finite (Q.ofInt (-1))) v))
      else some []
  | none => none

/-! ## RPN evaluator (`calc_and_print`) -/

/-- The two error shapes of `calc_and_print`: `malformedQueue` is the
mid-loop error (operator with too few operands, or a non-evaluable
token kind), rendered as the source's diagnostic string;
`finalCheck` is the final-stack check failure, rendered as `Err("")`. -/
inductive EvalErr
  | malformedQueue
  | finalCheck
  deriving DecidableEq, Repr

/-- The literal string carried by each `calc_and_print` error. -/
def renderEvalErr : EvalErr → String
  | .malformedQueue => "Выходная очередь сформирована неправильно"
  | .finalCheck => ""

/-- The final-stack check of `calc_and_print` after the queue is
exhausted: fail on an empty stack; pop the result; fail if anything
remains below it or its kind is not `NumberFloat`. -/
def calcFinish : List Token → PRes EvalErr Lexeme
  | [] => .err .finalCheck
  | r :: rest =>
      if rest ≠ [] ∨ r.1 ≠ TokenType.NumberFloat then .err .finalCheck
      else .ok r.2

/-- The dequeue loop of `calc_and_print`, with the operand stack as
explicit state (the trace printing is I/O and is elided). -/
def calcLoop : List Token → List Token → PRes EvalErr Lexeme
  | [], stack => calcFinish stack
  | out :: rest, stack =>
      match out.1 with
      | .NumberFloat => calcLoop rest (out :: stack)
      | .NumberInt => calcLoop rest (out :: stack)
      | .BinaryOperator =>
          match stack with
          | arg2 :: arg1 :: st1 =>
              match calc_binary_operator out.2 arg1 arg2 with
              | none => .crash
              | some res => calcLoop rest ((TokenType.NumberFloat, res) :: st1)
          | _ => .err .malformedQueue
      | .UnaryOperator =>
          match stack with
          | arg :: st1 =>
              match calc_unary_operator out.2 arg with
              | none => .crash
              | some res => calcLoop rest ((TokenType.NumberFloat, res) :: st1)
          | _ => .err .malformedQueue
      | .Function => calcLoop rest stack
      | _ => .err .malformedQueue

/-- `calc_and_print` of `src/main.rs`: evaluate the RPN queue with an
operand stack and return the final result lexeme. -/
def calc_and_print (output : List Token) : PRes EvalErr Lexeme :=
  calcLoop output []

/-! ## Driver (`process`) -/

/-- The three failure kinds of `process`, one per pipeline stage (the
source renders each as a diagnostic string; the caret-position
formatting is I/O and is elided). -/
inductive ProcErr
  | lexErr (c : Char)
  | convErr (e : ConvErr)
  | evalErr (e : EvalErr)
  deriving DecidableEq, Repr

/-- Model of `str::trim` on the ASCII whitespace arising here. -/
def trimWs (s : List Char) : List Char :=
  ((s.dropWhile isWsChar).reverse.dropWhile isWsChar).reverse

/-- `process` of `src/main.rs`: trim the line, delete every space
character (`replace(" ", "")` removes only spaces, not other
whitespace), then run lexer, converter and evaluator.  The `ok` value
is the numeric result lexeme (the source embeds it in a display string
with the RPN trace, which is I/O and is elided). -/
def process (input : List Char) : PRes ProcErr Lexeme :=
  let trimmed := (trimWs input).filter (fun c => c ≠ ' ')
  match tokerize trimmed with
  | .crash => .crash
  | .err c => .err (.lexErr c)
  | .ok tokens =>
      match convert_to_rpn tokens with
      | .crash => .crash
      | .err e => .err (.convErr e)
      | .ok output =>
          match calc_and_print output with
          | .crash => .crash
          | .err e => .err (.evalErr e)
          | .ok result => .ok result

/-! ## Abstract syntax of valid infix expressions

To state the end-to-end functional-correctness claims, infix
expressions are given an abstract syntax; `directEval` is the
specification-side "direct evaluation of the infix expression",
evaluating the tree recursively with the program's own per-operator
semantics; `ReprAt` relates an expression to the token sequences that
denote it in infix notation under the table's precedence and
associativity. -/

/-- Kind of a numeric literal. -/
inductive NumKind
  | int
  | float
  deriving DecidableEq, Repr

/-- The token kind of a numeric literal. -/
def numTokKind : NumKind → TokenType
  | .int => .NumberInt
  | .float => .NumberFloat

/-- Infix expressions: numeric literals, unary and binary operator
applications (operators named by their lexemes, `POS`/`NEG` for unary). -/
inductive Expr
  | num (k : NumKind) (s : Lexeme)
  | un (op : Lexeme) (e : Expr)
  | bin (op : Lexeme) (l r : Expr)
  deriving DecidableEq, Repr

/-- The RPN (postfix) token sequence of an expression: operands before
their operator. -/
def rpn : Expr → List Token
  | .num k s => [(numTokKind k, s)]
  | .un op e => rpn e ++ [(TokenType.UnaryOperator, op)]
  | .bin op l r => rpn l ++ rpn r ++ [(TokenType.BinaryOperator, op)]

/-- Direct recursive evaluation of an expression, applying
`calc_unary_operator` / `calc_binary_operator` (the program's own
operator semantics) at every node; returns the token the evaluator
would produce for it. -/
def evalTok : Expr → Option Token
  | .num k s => some (numTokKind k, s)
  | .un op e =>
      match evalTok e with
      | none => none
      | some t =>
          match calc_unary_operator op t with
          | none => none
          | some s => some (TokenType.NumberFloat, s)
  | .bin op l r =>
      match evalTok l, evalTok r with
      | some tl, some tr =>
          match calc_binary_operator op tl tr with
          | none => none
          | some s => some (TokenType.NumberFloat, s)
      | _, _ => none

/-- Direct evaluation of an infix expression, as the result lexeme. -/
def directEval (e : Expr) : Option Lexeme := (evalTok e).map Prod.snd

/-- Well-formedness of an expression: literal lexemes parse, unary
operators are `POS`/`NEG`, binary operators are among the six lexable
ones. -/
def WfB : Expr → Bool
  | .num _ s => (parseF s).isSome
  | .un op e => (op = ['P','O','S'] || op = ['N','E','G']) && WfB e
  | .bin op l r =>
      (op = ['+'] || op = ['-'] || op = ['/'] || op = ['*'] ||
        op = ['<','<'] || op = ['>','>']) && WfB l && WfB r

/-- Whether the top node of an expression is a binary application. -/
def IsBinExpr : Expr → Bool
  | .bin _ _ _ => true
  | _ => false

/-- `ReprAt e ts p`: the token sequence `ts` is a valid infix rendering
of the (unary-free) expression `e`, usable without parentheses as an
operand of any operator of rank at least `p` (lower rank binds
tighter).  Literals render anywhere; a parenthesized rendering renders
anywhere; a left-associative binary node of rank `r ≤ p` renders bare
with its left operand rendered at level `r` and its right operand at
level `r - 1` (strictly tighter), which is exactly the unambiguous
infix notation for the table's precedence and associativity. -/
inductive ReprAt : Expr → List Token → Nat → Prop
  | num (k : NumKind) (s : Lexeme) (p : Nat) :
      ReprAt (.num k s) [(numTokKind k, s)] p
  | paren (e : Expr) (ts : List Token) (q p : Nat) :
      ReprAt e ts q →
      ReprAt e ((TokenType.OpenedParenthesis, ['(']) ::
        (ts ++ [(TokenType.ClosedParenthesis, [')'])])) p
  | bin (op : Lexeme) (r : Nat) (l rr : Expr) (tsl tsr : List Token) (p : Nat) :
      get_op_info op = some (r, .LeftAssociation) → r ≤ p →
      ReprAt l tsl r → ReprAt rr tsr (r - 1) →
      ReprAt (.bin op l rr) (tsl ++ (TokenType.BinaryOperator, op) :: tsr) p

/-- Guard on the converter stack below the tokens of the current
subexpression: the top (if any) is not a `Function` (so a closing
parenthesis does not relocate it) and, if it is a `BinaryOperator`, its
rank is strictly looser than `p` (so no operator of the subexpression
pops it). -/
def StOk (st : List Token) (p : Nat) : Prop :=
  match st with
  | [] => True
  | t :: _ =>
      t.1 ≠ TokenType.Function ∧
      (t.1 = TokenType.BinaryOperator →
        ∃ r a, get_op_info t.2 = some (r, a) ∧ p < r)

/-- The pending operators a subexpression leaves on the converter
stack: all binary, all in the table, all of rank at most `p`. -/
def PendOk (pending : List Token) (p : Nat) : Prop :=
  ∀ t ∈ pending, t.1 = TokenType.BinaryOperator ∧
    ∃ r a, get_op_info t.2 = some (r, a) ∧ r ≤ p

/-- Counts the characters after the last point: used to state the
two-fractional-digit display shape. -/
def hasTwoFracDigits (s : Lexeme) : Bool :=
  match s.reverse with
  | d2 :: d1 :: '.' :: _ => d1.isDigit && d2.isDigit
  | _ => false

/-- Every `BinaryOperator` entry of a converter stack has a table
entry (so `need_op_pop_from_stack` cannot panic on it). -/
def stackOpsKnown (st : List Token) : Bool :=
  st.all (fun t =>
    if t.1 = TokenType.BinaryOperator then (get_op_info t.2).isSome else true)

/-- The rank-based pop condition of the claim, for an incoming operator
of rank `r1` and associativity `a1`: a stack entry is popped exactly
when it is a `BinaryOperator` whose rank is strictly lower than `r1`,
or equal to `r1` with `a1` left-associative. -/
def popPredR (r1 : Nat) (a1 : OperatorAssociation) (t : Token) : Bool :=
  if t.1 = TokenType.BinaryOperator then
    match get_op_info t.2 with
    | some (r2, _) => decide (r2 < r1 ∨ (r2 = r1 ∧ a1 = .LeftAssociation))
    | none => false
  else false

/-! ## Helper lemmas: the converter on represented expressions -/

theorem get_op_info_rank_pos {op : Lexeme} {r : Nat} {a : OperatorAssociation}
    (h : get_op_info op = some (r, a)) : 1 ≤ r := by
  simp only [get_op_info, KNOWNS_OPERATORS, lookupOp] at h
  split_ifs at h <;> simp_all <;> omega

theorem StOk_mono {st : List Token} {p q : Nat} (h : StOk st p) (hqp : q ≤ p) :
    StOk st q := by
  cases st with
  | nil => trivial
  | cons t rest =>
      obtain ⟨h1, h2⟩ := h
      refine ⟨h1, fun hb => ?_⟩
      obtain ⟨r, a, hra, hlt⟩ := h2 hb
      exact ⟨r, a, hra, by omega⟩

theorem popToParen_append {pending : List Token} {o : Token} {st : List Token}
    (hp : ∀ t ∈ pending, t.1 ≠ TokenType.OpenedParenthesis)
    (ho : o.1 = TokenType.OpenedParenthesis) :
    popToParen (pending ++ o :: st) = (pending, o :: st) := by
  induction pending with
  | nil => simp [popToParen, ho]
  | cons t ts ih =>
      have ht := hp t (by simp)
      have hrest : ∀ x ∈ ts, x.1 ≠ TokenType.OpenedParenthesis :=
        fun x hx => hp x (by simp [hx])
      simp [popToParen, ht, ih hrest]

theorem drainStack_no_paren {pending : List Token} (out : List Token)
    (hp : ∀ t ∈ pending, t.1 ≠ TokenType.OpenedParenthesis) :
    drainStack pending out = .ok (out ++ pending) := by
  induction pending generalizing out with
  | nil => simp [drainStack]
  | cons t ts ih =>
      have ht := hp t (by simp)
      have hrest : ∀ x ∈ ts, x.1 ≠ TokenType.OpenedParenthesis :=
        fun x hx => hp x (by simp [hx])
      rw [drainStack]
      simp only [ht, if_false]
      rw [ih (out ++ [t]) hrest]
      simp

theorem popOps_spec {op1 : Lexeme} {r1 : Nat} {pending st : List Token}
    (h1 : get_op_info op1 = some (r1, .LeftAssociation))
    (hpend : PendOk pending r1) (hst : StOk st r1) :
    popOps op1 (pending ++ st) = some (pending, st) := by
  induction pending with
  | nil =>
      simp only [List.nil_append]
      cases st with
      | nil => simp [popOps]
      | cons t rest =>
          by_cases hb : t.1 = TokenType.BinaryOperator
          · obtain ⟨_, h2⟩ := hst
            obtain ⟨r2, a2, hra, hlt⟩ := h2 hb
            have hneed : need_op_pop_from_stack op1 t.2 = some false := by
              simp only [need_op_pop_from_stack, h1, hra]
              simp only [Option.some.injEq, decide_eq_false_iff_not]
              intro hcon
              rcases hcon with hlt2 | ⟨heq, _⟩ <;> omega
            simp [popOps, hb, hneed]
          · simp [popOps, hb]
  | cons t ts ih =>
      obtain ⟨hb, r2, a2, hra, hle⟩ := hpend t (by simp)
      have hneed : need_op_pop_from_stack op1 t.2 = some true := by
        simp only [need_op_pop_from_stack, h1, hra]
        simp only [Option.some.injEq, decide_eq_true_eq]
        rcases Nat.lt_or_ge r2 r1 with hc | hc
        · exact Or.inl hc
        · exact Or.inr ⟨by omega, by trivial⟩
      have hts : PendOk ts r1 := fun x hx => hpend x (by simp [hx])
      simp [popOps, hb, hneed, ih hts]

theorem convertLoop_repr {e : Expr} {ts : List Token} {p : Nat} (h : ReprAt e ts p) :
    ∀ st out rest, StOk st p →
    ∃ pending add,
      convertLoop (ts ++ rest) st out = convertLoop rest (pending ++ st) (out ++ add) ∧
      add ++ pending = rpn e ∧ PendOk pending p := by
  induction h with
  | num k s p =>
      intro st out rest _
      refine ⟨[], [(numTokKind k, s)], ?_, by simp [rpn], by simp [PendOk]⟩
      cases k <;> simp [convertLoop, numTokKind]
  | paren e ts q p hrep ih =>
      intro st out rest hst
      have hstOP : StOk ((TokenType.OpenedParenthesis, ['(']) :: st) q := by
        exact ⟨by simp, by simp⟩
      obtain ⟨pending, add, heq, hadd, hpend⟩ :=
        ih ((TokenType.OpenedParenthesis, ['(']) :: st) out
          ((TokenType.ClosedParenthesis, [')']) :: rest) hstOP
      have hnp : ∀ t ∈ pending, t.1 ≠ TokenType.OpenedParenthesis := by
        intro t ht
        have := (hpend t ht).1
        simp [this]
      have hpop := @popToParen_append pending (TokenType.OpenedParenthesis, ['(']) st hnp rfl
      refine ⟨[], add ++ pending, ?_, by simp [hadd], by simp [PendOk]⟩
      have step1 :
          convertLoop (((TokenType.OpenedParenthesis, ['(']) ::
              (ts ++ [(TokenType.ClosedParenthesis, [')'])])) ++ rest) st out =
          convertLoop (ts ++ ((TokenType.ClosedParenthesis, [')']) :: rest))
            ((TokenType.OpenedParenthesis, ['(']) :: st) out := by
        simp [convertLoop]
      rw [step1, heq]
      rw [convertLoop]
      simp only [hpop]
      cases st with
      | nil => simp
      | cons f st3 =>
          have hf : f.1 ≠ TokenType.Function := hst.1
          simp [hf]
  | bin op r l rr tsl tsr p hop hrp hl hr ihl ihr =>
      intro st out rest hst
      have hstr : StOk st r := StOk_mono hst hrp
      obtain ⟨pl, al, heql, haddl, hpendl⟩ :=
        ihl st out ((TokenType.BinaryOperator, op) :: (tsr ++ rest)) hstr
      have hpops := popOps_spec hop hpendl hstr
      have hrpos : 1 ≤ r := get_op_info_rank_pos hop
      have hstop : StOk ((TokenType.BinaryOperator, op) :: st) (r - 1) := by
        exact ⟨by simp, fun _ => ⟨r, .LeftAssociation, hop, by omega⟩⟩
      obtain ⟨pr, ar, heqr, haddr, hpendr⟩ :=
        ihr ((TokenType.BinaryOperator, op) :: st) ((out ++ al) ++ pl) rest hstop
      refine ⟨pr ++ [(TokenType.BinaryOperator, op)], al ++ pl ++ ar, ?_, ?_, ?_⟩
      · have step1 :
            convertLoop ((tsl ++ (TokenType.BinaryOperator, op) :: tsr) ++ rest) st out =
            convertLoop (tsl ++ ((TokenType.BinaryOperator, op) :: (tsr ++ rest))) st out := by
          simp
        have step2 :
            convertLoop ((TokenType.BinaryOperator, op) :: (tsr ++ rest)) (pl ++ st) (out ++ al) =
            convertLoop (tsr ++ rest) ((TokenType.BinaryOperator, op) :: st) ((out ++ al) ++ pl) := by
          rw [convertLoop]
          simp [hpops]
        rw [step1, heql, step2, heqr]
        simp
      · rw [List.append_assoc, List.append_assoc]
        rw [show ar ++ (pr ++ [(TokenType.BinaryOperator, op)]) =
              (ar ++ pr) ++ [(TokenType.BinaryOperator, op)] by simp]
        rw [haddr]
        rw [show al ++ (pl ++ (rpn rr ++ [(TokenType.BinaryOperator, op)])) =
              (al ++ pl) ++ (rpn rr ++ [(TokenType.BinaryOperator, op)]) by simp]
        rw [haddl]
        simp [rpn]
      · intro t ht
        rcases List.mem_append.1 ht with hmem | hmem
        · obtain ⟨hb, r2, a2, hra, hle⟩ := hpendr t hmem
          exact ⟨hb, r2, a2, hra, by omega⟩
        · simp only [List.mem_singleton] at hmem
          subst hmem
          exact ⟨rfl, r, .LeftAssociation, hop, hrp⟩

theorem convert_to_rpn_of_repr {e : Expr} {ts : List Token} {p : Nat}
    (h : ReprAt e ts p) : convert_to_rpn ts = .ok (rpn e) := by
  obtain ⟨pending, add, heq, hadd, hpend⟩ :=
    convertLoop_repr h [] [] [] (by simp [StOk])
  have h0 : convert_to_rpn ts = convertLoop (ts ++ []) [] [] := by
    simp [convert_to_rpn]
  rw [h0, heq]
  have hnp : ∀ t ∈ pending, t.1 ≠ TokenType.OpenedParenthesis := by
    intro t ht
    have := (hpend t ht).1
    simp [this]
  rw [convertLoop]
  simp only [List.append_nil, List.nil_append]
  rw [drainStack_no_paren add hnp]
  simp [hadd]

/-! ## Helper lemmas: formatted results parse back, and the evaluator
on RPN sequences -/

theorem digitChar_isDigit : ∀ m : Nat, m < 10 → (Nat.digitChar m).isDigit = true := by
  decide

theorem natToDecAux_digits (fuel : Nat) :
    ∀ n, n < fuel →
      natToDecAux fuel n ≠ [] ∧ ∀ c ∈ natToDecAux fuel n, c.isDigit = true := by
  induction fuel with
  | zero => intro n h; omega
  | succ f ih =>
      intro n h
      rw [natToDecAux]
      by_cases h10 : n < 10
      · simp only [h10, if_true]
        refine ⟨by simp, ?_⟩
        intro c hc
        simp only [List.mem_singleton] at hc
        subst hc
        exact digitChar_isDigit n h10
      · have hdiv : n / 10 < n := Nat.div_lt_self (by omega) (by omega)
        have hrec := ih (n / 10) (by omega)
        simp only [h10, if_false]
        refine ⟨by simp, ?_⟩
        intro c hc
        rw [List.mem_append] at hc
        rcases hc with hc | hc
        · exact hrec.2 c hc
        · simp only [List.mem_singleton] at hc
          subst hc
          exact digitChar_isDigit (n % 10) (by omega)

theorem natToDec_digits (n : Nat) :
    natToDec n ≠ [] ∧ ∀ c ∈ natToDec n, c.isDigit = true :=
  natToDecAux_digits (n + 1) n (by omega)

theorem takeWhile_append_of_all {p : Char → Bool} :
    ∀ (l1 : List Char) (x : Char) (l2 : List Char),
      (∀ c ∈ l1, p c = true) → p x = false →
      (l1 ++ x :: l2).takeWhile p = l1 ∧ (l1 ++ x :: l2).dropWhile p = x :: l2 := by
  intro l1
  induction l1 with
  | nil =>
      intro x l2 _ hx
      simp [List.takeWhile, List.dropWhile, hx]
  | cons c cs ih =>
      intro x l2 hall hx
      have hc := hall c (by simp)
      have hcs : ∀ y ∈ cs, p y = true := fun y hy => hall y (by simp [hy])
      obtain ⟨h1, h2⟩ := ih x l2 hcs hx
      simp [List.takeWhile, List.dropWhile, hc, h1, h2]

theorem parseFAbs_shape {ip fp : List Char} (h1 : ip ≠ [])
    (h2 : ∀ c ∈ ip, c.isDigit = true) (h3 : fp ≠ [])
    (h4 : ∀ c ∈ fp, c.isDigit = true) :
    (parseFAbs (ip ++ '.' :: fp)).isSome = true := by
  obtain ⟨c, cs, rfl⟩ := List.exists_cons_of_ne_nil h1
  obtain ⟨htake, hdrop⟩ := takeWhile_append_of_all (c :: cs) '.' fp h2 (by decide)
  unfold parseFAbs
  rw [htake, hdrop]
  simp [h3, List.all_eq_true.2 h4]

theorem isDigit_ne_sign {c : Char} (h : c.isDigit = true) : c ≠ '-' ∧ c ≠ '+' := by
  constructor <;> intro hc <;> subst hc <;> exact absurd h (by decide)

theorem parseFUnsigned_decimal {s : List Char} (h1 : s ≠ ['i','n','f'])
    (h2 : s ≠ ['N','a','N']) :
    parseFUnsigned s = (parseFAbs s).map F.finite := by
  simp [parseFUnsigned, h1, h2]

theorem format2abs_head_digit (q : Q) :
    ∃ c cs, format2abs q = c :: cs ∧ c.isDigit = true := by
  have hne := (natToDec_digits ((rhe (qMul q (Q.ofInt 100))).toNat / 100)).1
  have hdig := (natToDec_digits ((rhe (qMul q (Q.ofInt 100))).toNat / 100)).2
  obtain ⟨c, cs, hcons⟩ := List.exists_cons_of_ne_nil hne
  have hcd : c.isDigit = true := by
    apply hdig
    rw [hcons]
    simp
  refine ⟨c, cs ++ '.' :: [Nat.digitChar ((rhe (qMul q (Q.ofInt 100))).toNat / 10 % 10),
    Nat.digitChar ((rhe (qMul q (Q.ofInt 100))).toNat % 10)], ?_, hcd⟩
  unfold format2abs
  rw [hcons]
  rfl

theorem parseFUnsigned_format2abs_isSome (q : Q) :
    (parseFUnsigned (format2abs q)).isSome = true := by
  have habs : (parseFAbs (format2abs q)).isSome = true := by
    unfold format2abs
    refine parseFAbs_shape (natToDec_digits _).1 (natToDec_digits _).2 (by simp) ?_
    intro c hc
    simp only [List.mem_cons, List.not_mem_nil, or_false] at hc
    rcases hc with rfl | rfl
    · exact digitChar_isDigit _ (by omega)
    · exact digitChar_isDigit _ (by omega)
  obtain ⟨c, cs, hcons, hcd⟩ := format2abs_head_digit q
  have h1 : format2abs q ≠ ['i','n','f'] := by
    rw [hcons]
    intro he
    have hc : c = 'i' := by simpa using congrArg List.head? he
    rw [hc] at hcd
    exact absurd hcd (by decide)
  have h2 : format2abs q ≠ ['N','a','N'] := by
    rw [hcons]
    intro he
    have hc : c = 'N' := by simpa using congrArg List.head? he
    rw [hc] at hcd
    exact absurd hcd (by decide)
  rw [parseFUnsigned_decimal h1 h2]
  simpa using habs

theorem parseF_format2_isSome (f : F) : (parseF (format2 f)).isSome = true := by
  cases f with
  | finite q =>
      show (parseF (format2Fin q)).isSome = true
      unfold format2Fin
      by_cases hneg : q.num < 0
      · simp only [hneg, if_true]
        rw [parseF]
        obtain ⟨f0, hf0⟩ :=
          Option.isSome_iff_exists.1 (parseFUnsigned_format2abs_isSome (qNeg q))
        simp [hf0]
      · simp only [hneg, if_false]
        obtain ⟨c, cs, hcons, hcd⟩ := format2abs_head_digit q
        obtain ⟨hm, hp⟩ := isDigit_ne_sign hcd
        rw [hcons, parseF]
        simp only [hm, hp, if_false]
        have := parseFUnsigned_format2abs_isSome q
        rw [hcons] at this
        exact this
  | inf => decide
  | negInf => decide
  | nan => decide

theorem calc_binary_operator_known {op : Lexeme} {t1 t2 : Token}
    (hop : op = ['+'] ∨ op = ['-'] ∨ op = ['/'] ∨ op = ['*'] ∨
      op = ['<','<'] ∨ op = ['>','>'])
    (h1 : (parseF t1.2).isSome = true) (h2 : (parseF t2.2).isSome = true) :
    ∃ s, calc_binary_operator op t1 t2 = some s ∧ (parseF s).isSome = true := by
  obtain ⟨v1, hv1⟩ := Option.isSome_iff_exists.1 h1
  obtain ⟨v2, hv2⟩ := Option.isSome_iff_exists.1 h2
  rcases hop with rfl | rfl | rfl | rfl | rfl | rfl
  · exact ⟨format2 (F.add v1 v2),
      by simp [calc_binary_operator, hv1, hv2], parseF_format2_isSome _⟩
  · exact ⟨format2 (F.sub v1 v2),
      by simp [calc_binary_operator, hv1, hv2], parseF_format2_isSome _⟩
  · exact ⟨format2 (F.div v1 v2),
      by simp [calc_binary_operator, hv1, hv2], parseF_format2_isSome _⟩
  · exact ⟨format2 (F.mul v1 v2),
      by simp [calc_binary_operator, hv1, hv2], parseF_format2_isSome _⟩
  · exact ⟨format2 (.finite (Q.ofInt (wrap32 (truncSat v1 * 2 ^ (truncSat v2 % 32).toNat)))),
      by simp [calc_binary_operator, hv1, hv2], parseF_format2_isSome _⟩
  · exact ⟨format2 (.finite (Q.ofInt (Int.fdiv (truncSat v1) (2 ^ (truncSat v2 % 32).toNat)))),
      by simp [calc_binary_operator, hv1, hv2], parseF_format2_isSome _⟩

theorem calc_unary_operator_known {op : Lexeme} {t : Token}
    (hop : op = ['P','O','S'] ∨ op = ['N','E','G'])
    (h : (parseF t.2).isSome = true) :
    ∃ s, calc_unary_operator op t = some s ∧ (parseF s).isSome = true := by
  obtain ⟨v, hv⟩ := Option.isSome_iff_exists.1 h
  rcases hop with rfl | rfl
  · exact ⟨format2 v, by simp [calc_unary_operator, hv], parseF_format2_isSome _⟩
  · exact ⟨format2 (F.mul (.finite (Q.ofInt (-1))) v),
      by simp [calc_unary_operator, hv], parseF_format2_isSome _⟩

theorem wf_evalTok : ∀ e : Expr, WfB e = true →
    ∃ t, evalTok e = some t ∧ (parseF t.2).isSome = true := by
  intro e
  induction e with
  | num k s =>
      intro h
      exact ⟨(numTokKind k, s), rfl, by simpa [WfB] using h⟩
  | un op e ih =>
      intro h
      simp only [WfB, Bool.and_eq_true, Bool.or_eq_true, decide_eq_true_eq] at h
      obtain ⟨hop, he⟩ := h
      obtain ⟨t, ht, hps⟩ := ih he
      obtain ⟨s, hs, hps2⟩ := calc_unary_operator_known hop hps
      refine ⟨(TokenType.NumberFloat, s), ?_, hps2⟩
      simp [evalTok, ht, hs]
  | bin op l r ihl ihr =>
      intro h
      simp only [WfB, Bool.and_eq_true, Bool.or_eq_true, decide_eq_true_eq] at h
      obtain ⟨⟨hop, hl⟩, hr⟩ := h
      obtain ⟨tl, htl, hpl⟩ := ihl hl
      obtain ⟨tr, htr, hpr⟩ := ihr hr
      have hop6 : op = ['+'] ∨ op = ['-'] ∨ op = ['/'] ∨ op = ['*'] ∨
          op = ['<','<'] ∨ op = ['>','>'] := by tauto
      obtain ⟨s, hs, hps2⟩ := calc_binary_operator_known hop6 hpl hpr
      refine ⟨(TokenType.NumberFloat, s), ?_, hps2⟩
      simp [evalTok, htl, htr, hs]

theorem calcLoop_rpn : ∀ (e : Expr) (t : Token), evalTok e = some t →
    ∀ rest st, calcLoop (rpn e ++ rest) st = calcLoop rest (t :: st) := by
  intro e
  induction e with
  | num k s =>
      intro t ht rest st
      simp only [evalTok, Option.some.injEq] at ht
      subst ht
      cases k <;> simp [rpn, numTokKind, calcLoop]
  | un op e ih =>
      intro t ht rest st
      cases hte : evalTok e with
      | none => simp [evalTok, hte] at ht
      | some te =>
          cases hcu : calc_unary_operator op te with
          | none => simp [evalTok, hte, hcu] at ht
          | some s =>
              simp only [evalTok, hte, hcu, Option.some.injEq] at ht
              subst ht
              rw [rpn, List.append_assoc, ih te hte]
              simp [calcLoop, hcu]
  | bin op l r ihl ihr =>
      intro t ht rest st
      cases htl : evalTok l with
      | none => simp [evalTok, htl] at ht
      | some tl =>
          cases htr : evalTok r with
          | none => simp [evalTok, htl, htr] at ht
          | some tr =>
              cases hcb : calc_binary_operator op tl tr with
              | none => simp [evalTok, htl, htr, hcb] at ht
              | some s =>
                  simp only [evalTok, htl, htr, hcb, Option.some.injEq] at ht
                  subst ht
                  rw [rpn, List.append_assoc, List.append_assoc, ihl tl htl,
                    ihr tr htr]
                  simp [calcLoop, hcb]

/-! ## Claim C1 -/

/-- C1 (amended): for every valid infix expression built from numeric
literals and the six binary operators with balanced parentheses, no
unary operators and a binary operator at the top (so that the final
check, which demands a `NumberFloat` result, passes), running
`convert_to_rpn` on any token sequence denoting it and then
`calc_and_print` on the resulting queue succeeds, and the numeric
result equals the direct recursive evaluation of the expression with
the program's own per-operator arithmetic. -/
theorem C1_pipeline_matches_direct_eval {e : Expr} {ts : List Token} {p : Nat}
    (hwf : WfB e = true) (hbin : IsBinExpr e = true) (hrep : ReprAt e ts p) :
    ∃ s, convert_to_rpn ts = .ok (rpn e) ∧
      calc_and_print (rpn e) = .ok s ∧ directEval e = some s := by
  obtain ⟨t, ht, _⟩ := wf_evalTok e hwf
  have htf : t.1 = TokenType.NumberFloat := by
    cases e with
    | num k s => simp [IsBinExpr] at hbin
    | un op e1 => simp [IsBinExpr] at hbin
    | bin op l r =>
        cases htl : evalTok l with
        | none => simp [evalTok, htl] at ht
        | some tl =>
            cases htr : evalTok r with
            | none => simp [evalTok, htl, htr] at ht
            | some tr =>
                cases hcb : calc_binary_operator op tl tr with
                | none => simp [evalTok, htl, htr, hcb] at ht
                | some s =>
                    simp only [evalTok, htl, htr, hcb, Option.some.injEq] at ht
                    rw [← ht]
  refine ⟨t.2, convert_to_rpn_of_repr hrep, ?_, by simp [directEval, ht]⟩
  unfold calc_and_print
  rw [← List.append_nil (rpn e), calcLoop_rpn e t ht [] []]
  simp [calcLoop, calcFinish, htf]

/-- C1 (counterexample): the claim as stated fails on the code.  The
valid infix expression `-2+3` (token sequence produced by the lexer:
`NEG 2 + 3`) converts to the RPN queue `2 3 + NEG` — the unary operator
is never popped by the precedence comparison, although `NEG` binds
tighter than `+` — so the pipeline yields `-5.00`, while direct
evaluation of the expression `(-2)+3` with the program's own operator
semantics yields `1.00`.  Moreover the valid expression `2` (a bare
integer literal) fails outright, because the final check accepts only a
`NumberFloat` result. -/
theorem C1_counterexample :
    tokerize ['-','2','+','3'] =
      .ok [(TokenType.UnaryOperator, ['N','E','G']), (TokenType.NumberInt, ['2']),
        (TokenType.BinaryOperator, ['+']), (TokenType.NumberInt, ['3'])] ∧
    convert_to_rpn [(TokenType.UnaryOperator, ['N','E','G']), (TokenType.NumberInt, ['2']),
        (TokenType.BinaryOperator, ['+']), (TokenType.NumberInt, ['3'])] =
      .ok [(TokenType.NumberInt, ['2']), (TokenType.NumberInt, ['3']),
        (TokenType.BinaryOperator, ['+']), (TokenType.UnaryOperator, ['N','E','G'])] ∧
    calc_and_print [(TokenType.NumberInt, ['2']), (TokenType.NumberInt, ['3']),
        (TokenType.BinaryOperator, ['+']), (TokenType.UnaryOperator, ['N','E','G'])] =
      .ok ['-','5','.','0','0'] ∧
    directEval (.bin ['+'] (.un ['N','E','G'] (.num .int ['2'])) (.num .int ['3'])) =
      some ['1','.','0','0'] ∧
    (['-','5','.','0','0'] : Lexeme) ≠ ['1','.','0','0'] ∧
    process ['-','2','+','3'] = .ok ['-','5','.','0','0'] ∧
    process ['2'] = .err (.evalErr .finalCheck) := by
  decide

/-- C1 (witness): the amended claim applied to the expression `2+3*4`
with its bare (parenthesis-free) token sequence. -/
theorem C1_witness :
    ∃ s,
      convert_to_rpn
          [(TokenType.NumberInt, ['2']), (TokenType.BinaryOperator, ['+']),
            (TokenType.NumberInt, ['3']), (TokenType.BinaryOperator, ['*']),
            (TokenType.NumberInt, ['4'])] =
        .ok (rpn (.bin ['+'] (.num .int ['2'])
          (.bin ['*'] (.num .int ['3']) (.num .int ['4'])))) ∧
      calc_and_print (rpn (.bin ['+'] (.num .int ['2'])
          (.bin ['*'] (.num .int ['3']) (.num .int ['4'])))) = .ok s ∧
      directEval (.bin ['+'] (.num .int ['2'])
          (.bin ['*'] (.num .int ['3']) (.num .int ['4']))) = some s :=
  C1_pipeline_matches_direct_eval (by decide) (by decide)
    (ReprAt.bin ['+'] 3 (.num .int ['2'])
      (.bin ['*'] (.num .int ['3']) (.num .int ['4']))
      [(TokenType.NumberInt, ['2'])]
      [(TokenType.NumberInt, ['3']), (TokenType.BinaryOperator, ['*']),
        (TokenType.NumberInt, ['4'])]
      3 (by decide) (by decide)
      (ReprAt.num .int ['2'] 3)
      (ReprAt.bin ['*'] 2 (.num .int ['3']) (.num .int ['4'])
        [(TokenType.NumberInt, ['3'])] [(TokenType.NumberInt, ['4'])]
        2 (by decide) (by decide)
        (ReprAt.num .int ['3'] 2) (ReprAt.num .int ['4'] 1)))

/-! ## Claim C2 -/

/-- C2 (amended): after the evaluator exhausts the RPN queue, it
returns success if and only if exactly one value remains on the operand
stack and that value is a FLOAT literal (`NumberFloat`); in every other
case — empty stack, more than one value, or a top that is not a float
literal, including a single INTEGER literal — it fails with an
evaluation error. -/
theorem C2_final_check_iff (st : List Token) (s : Lexeme) :
    calcLoop [] st = calcFinish st ∧
    (calcFinish st = .ok s ↔ st = [(TokenType.NumberFloat, s)]) := by
  refine ⟨rfl, ?_, ?_⟩
  · intro h
    cases st with
    | nil => simp [calcFinish] at h
    | cons r rest =>
        rw [calcFinish] at h
        split_ifs at h with hc
        push_neg at hc
        simp only [PRes.ok.injEq] at h
        obtain ⟨h1, h2⟩ := hc
        subst h1
        obtain ⟨rk, rl⟩ := r
        simp only at h2 h
        subst h2
        subst h
        rfl
  · rintro rfl
    simp [calcFinish]

/-- C2 (counterexample): the claim as stated fails on the code: a queue
leaving exactly one INTEGER literal on the stack (here the single-token
queue `2`) is rejected by the final check, which demands `NumberFloat`
specifically, even though an integer literal is a numeric literal. -/
theorem C2_counterexample :
    calcFinish [(TokenType.NumberInt, ['2'])] = .err .finalCheck ∧
    calc_and_print [(TokenType.NumberInt, ['2'])] = .err .finalCheck ∧
    process ['2'] = .err (.evalErr .finalCheck) := by
  decide

/-- C2 (witness): the final check applied at the concrete singleton
float stack `5.00`. -/
theorem C2_witness :
    calcFinish [(TokenType.NumberFloat, ['5','.','0','0'])] = .ok ['5','.','0','0'] :=
  (C2_final_check_iff [(TokenType.NumberFloat, ['5','.','0','0'])]
    ['5','.','0','0']).2.mpr rfl

/-! ## Claim C3 -/

/-- C3 (code bug): the lexer is NOT total.  On the input `)2<<3` the
binary-operator pattern finds `<<` at a non-prefix position (its second
and third regex alternatives are not anchored), the previously emitted
token (a closing parenthesis) is permissible, and
`strip_prefix("<<").unwrap()` panics.  The claim (and the spec's
"no crash paths") describe the evident intent; the missing anchor and
the `unwrap` are the slip. -/
theorem C3_tokerize_crash :
    tokerize [')','2','<','<','3'] = .crash ∧
    process [')','2','<','<','3'] = .crash := by
  decide

/-! ## Claim C4 -/

/-- C4 (code bug): whitespace matches are NOT filtered at the lexer
boundary: `tokerize` pushes a `Whitespaces` token like any other.  On
the input `2<TAB>3` — whose tab survives `process`'s trimming and its
space-only `replace(" ", "")` — the token sequence passed to the
converter contains a `Whitespaces` token, the case the converter's own
"this must not happen" arm concedes should be unreachable. -/
theorem C4_whitespace_token_reaches_converter :
    tokerize ['2','\t','3'] =
      .ok [(TokenType.NumberInt, ['2']), (TokenType.Whitespaces, ['\t']),
        (TokenType.NumberInt, ['3'])] ∧
    (TokenType.Whitespaces, ['\t']) ∈
      [(TokenType.NumberInt, ['2']), (TokenType.Whitespaces, ['\t']),
        (TokenType.NumberInt, ['3'])] ∧
    (trimWs ['2','\t','3']).filter (fun c => c ≠ ' ') = ['2','\t','3'] := by
  decide

/-! ## Claim C7 -/

/-- C7: processing `(2+3` fails with the missing-parenthesis syntax
error detected when draining the stack at end of input finds an open
parenthesis, and processing `2+3)` fails with the missing-parenthesis
syntax error detected when a closing parenthesis empties the stack
without finding an open parenthesis; neither produces a result.  (The
source renders both error sites with the same message string; the
detection sites are distinct, as the error constructors record.) -/
theorem C7_unmatched_parens :
    tokerize ['(','2','+','3'] =
      .ok [(TokenType.OpenedParenthesis, ['(']), (TokenType.NumberInt, ['2']),
        (TokenType.BinaryOperator, ['+']), (TokenType.NumberInt, ['3'])] ∧
    convert_to_rpn [(TokenType.OpenedParenthesis, ['(']), (TokenType.NumberInt, ['2']),
        (TokenType.BinaryOperator, ['+']), (TokenType.NumberInt, ['3'])] =
      .err .missingParenDrain ∧
    process ['(','2','+','3'] = .err (.convErr .missingParenDrain) ∧
    tokerize ['2','+','3',')'] =
      .ok [(TokenType.NumberInt, ['2']), (TokenType.BinaryOperator, ['+']),
        (TokenType.NumberInt, ['3']), (TokenType.ClosedParenthesis, [')'])] ∧
    convert_to_rpn [(TokenType.NumberInt, ['2']), (TokenType.BinaryOperator, ['+']),
        (TokenType.NumberInt, ['3']), (TokenType.ClosedParenthesis, [')'])] =
      .err .missingParenClose ∧
    process ['2','+','3',')'] = .err (.convErr .missingParenClose) := by
  decide

/-! ## Claim C5 -/

/-- C5: a matched `+` or `-` is classified `BinaryOperator` exactly
when the immediately preceding emitted token exists and is an integer
literal, a float literal, or a closing parenthesis (the binary-operator
attempt consumes it then, and skips otherwise), and the
unary-operator attempt consumes a leading `+`/`-` rewriting the lexeme
to `POS`/`NEG`; in particular `-3` lexes `-` as `NEG`, while `2-3` and
`(2)-3` lex `-` as a binary operator. -/
theorem C5_unary_binary_disambiguation :
    (∀ (acc : List Token) (s : List Char) (c : Char), (c = '+' ∨ c = '-') →
      lexStep .BinaryOperator (acc, c :: s) =
        (if isPermissibleLast acc then
          some (acc ++ [(TokenType.BinaryOperator, [c])], s)
        else some (acc, c :: s))) ∧
    (∀ (acc : List Token) (s : List Char),
      lexStep .UnaryOperator (acc, '+' :: s) =
        some (acc ++ [(TokenType.UnaryOperator, ['P','O','S'])], s) ∧
      lexStep .UnaryOperator (acc, '-' :: s) =
        some (acc ++ [(TokenType.UnaryOperator, ['N','E','G'])], s)) ∧
    tokerize ['-','3'] =
      .ok [(TokenType.UnaryOperator, ['N','E','G']), (TokenType.NumberInt, ['3'])] ∧
    tokerize ['2','-','3'] =
      .ok [(TokenType.NumberInt, ['2']), (TokenType.BinaryOperator, ['-']),
        (TokenType.NumberInt, ['3'])] ∧
    tokerize ['(','2',')','-','3'] =
      .ok [(TokenType.OpenedParenthesis, ['(']), (TokenType.NumberInt, ['2']),
        (TokenType.ClosedParenthesis, [')']), (TokenType.BinaryOperator, ['-']),
        (TokenType.NumberInt, ['3'])] := by
  refine ⟨?_, fun acc s => ⟨rfl, rfl⟩, by decide, by decide, by decide⟩
  intro acc s c hc
  by_cases hperm : isPermissibleLast acc <;>
    rcases hc with rfl | rfl <;>
      simp [lexStep, binCaptures, hperm, List.isPrefixOf]

/-- C5 (witness): the binary-operator attempt on `-3` after an emitted
integer literal consumes the minus as a binary operator. -/
theorem C5_witness :
    lexStep .BinaryOperator ([(TokenType.NumberInt, ['2'])], ['-','3']) =
      some ([(TokenType.NumberInt, ['2']), (TokenType.BinaryOperator, ['-'])], ['3']) := by
  have h := C5_unary_binary_disambiguation.1 [(TokenType.NumberInt, ['2'])] ['3'] '-'
    (Or.inr rfl)
  rw [h]
  decide

/-! ## Claim C6 -/

theorem popOps_eq_takeWhile (op1 : Lexeme) (r1 : Nat) (a1 : OperatorAssociation)
    (h1 : get_op_info op1 = some (r1, a1)) :
    ∀ st : List Token, stackOpsKnown st = true →
      popOps op1 st =
        some (st.takeWhile (popPredR r1 a1), st.dropWhile (popPredR r1 a1)) := by
  intro st
  induction st with
  | nil => intro _; simp [popOps]
  | cons t ts ih =>
      intro hst
      simp only [stackOpsKnown, List.all_cons, Bool.and_eq_true] at hst
      obtain ⟨hth, hts⟩ := hst
      have hts2 : stackOpsKnown ts = true := hts
      by_cases hb : t.1 = TokenType.BinaryOperator
      · rw [if_pos hb] at hth
        obtain ⟨⟨r2, a2⟩, hra⟩ := Option.isSome_iff_exists.1 hth
        have hneed : need_op_pop_from_stack op1 t.2 =
            some (decide (r2 < r1 ∨ (r2 = r1 ∧ a1 = .LeftAssociation))) := by
          simp [need_op_pop_from_stack, h1, hra]
        by_cases hp : r2 < r1 ∨ (r2 = r1 ∧ a1 = .LeftAssociation)
        · have hpred : popPredR r1 a1 t = true := by simp [popPredR, hb, hra, hp]
          simp [popOps, hb, hneed, hp, hpred, ih hts2]
        · have hpred : popPredR r1 a1 t = false := by simp [popPredR, hb, hra, hp]
          simp [popOps, hb, hneed, hp, hpred]
      · have hpred : popPredR r1 a1 t = false := by simp [popPredR, hb]
        simp [popOps, hb, hpred]

/-- C6: when the converter meets an operator token with lexeme `op1` of
rank `r1` and associativity `a1`, it pops exactly the longest prefix of
the stack whose entries are `BinaryOperator`s of rank strictly lower
than `r1`, or of rank equal to `r1` when `op1` is left-associative
(`popPredR`); `UnaryOperator` entries never satisfy the pop condition;
and afterwards the operator token is pushed onto the remaining stack. -/
theorem C6_operator_pop_characterization (op1 : Lexeme) (r1 : Nat)
    (a1 : OperatorAssociation) (st : List Token)
    (h1 : get_op_info op1 = some (r1, a1)) (hst : stackOpsKnown st = true) :
    popOps op1 st =
      some (st.takeWhile (popPredR r1 a1), st.dropWhile (popPredR r1 a1)) ∧
    (∀ t ∈ st, t.1 = TokenType.UnaryOperator → popPredR r1 a1 t = false) ∧
    (∀ (kind : TokenType) (rest out : List Token),
      kind = TokenType.BinaryOperator ∨ kind = TokenType.UnaryOperator →
      convertLoop ((kind, op1) :: rest) st out =
        convertLoop rest ((kind, op1) :: st.dropWhile (popPredR r1 a1))
          (out ++ st.takeWhile (popPredR r1 a1))) := by
  have hpop := popOps_eq_takeWhile op1 r1 a1 h1 st hst
  refine ⟨hpop, ?_, ?_⟩
  · intro t _ hu
    simp [popPredR, hu]
  · intro kind rest out hk
    rcases hk with rfl | rfl
    · rw [convertLoop]
      simp [hpop]
    · rw [convertLoop]
      simp [hpop]

/-- C6 (witness): pushing `+` (rank 3, left-associative) onto the stack
`* NEG +` pops exactly the tighter binary `*`, stops at the unary `NEG`
without popping it, and pushes `+`. -/
theorem C6_witness :
    popOps ['+'] [(TokenType.BinaryOperator, ['*']),
        (TokenType.UnaryOperator, ['N','E','G']),
        (TokenType.BinaryOperator, ['+'])] =
      some ([(TokenType.BinaryOperator, ['*'])],
        [(TokenType.UnaryOperator, ['N','E','G']),
          (TokenType.BinaryOperator, ['+'])]) := by
  have h := (C6_operator_pop_characterization ['+'] 3 .LeftAssociation
    [(TokenType.BinaryOperator, ['*']), (TokenType.UnaryOperator, ['N','E','G']),
      (TokenType.BinaryOperator, ['+'])] (by decide) (by decide)).1
  rw [h]
  decide

/-! ## Claim C8 -/

theorem hasTwoFracDigits_append (A : List Char) (d1 d2 : Char)
    (h1 : d1.isDigit = true) (h2 : d2.isDigit = true) :
    hasTwoFracDigits (A ++ '.' :: [d1, d2]) = true := by
  unfold hasTwoFracDigits
  rw [List.reverse_append]
  simp [h1, h2]

theorem hasTwoFracDigits_format2Fin (q : Q) :
    hasTwoFracDigits (format2Fin q) = true := by
  have habs : ∀ x : Q, hasTwoFracDigits (format2abs x) = true := by
    intro x
    unfold format2abs
    exact hasTwoFracDigits_append _ _ _ (digitChar_isDigit _ (by omega))
      (digitChar_isDigit _ (by omega))
  unfold format2Fin
  by_cases h : q.num < 0
  · simp only [h, if_true]
    have := habs (qNeg q)
    unfold format2abs at this ⊢
    rw [show ('-' :: (natToDec ((rhe (qMul (qNeg q) (Q.ofInt 100))).toNat / 100) ++
        '.' :: [Nat.digitChar ((rhe (qMul (qNeg q) (Q.ofInt 100))).toNat / 10 % 10),
          Nat.digitChar ((rhe (qMul (qNeg q) (Q.ofInt 100))).toNat % 10)])) =
      (('-' :: natToDec ((rhe (qMul (qNeg q) (Q.ofInt 100))).toNat / 100)) ++
        '.' :: [Nat.digitChar ((rhe (qMul (qNeg q) (Q.ofInt 100))).toNat / 10 % 10),
          Nat.digitChar ((rhe (qMul (qNeg q) (Q.ofInt 100))).toNat % 10)]) from rfl]
    exact hasTwoFracDigits_append _ _ _ (digitChar_isDigit _ (by omega))
      (digitChar_isDigit _ (by omega))
  · simp only [h, if_false]
    exact habs q

theorem format2_shape (f : F) :
    hasTwoFracDigits (format2 f) = true ∨ format2 f = ['i','n','f'] ∨
      format2 f = ['-','i','n','f'] ∨ format2 f = ['N','a','N'] := by
  cases f with
  | finite q => exact Or.inl (hasTwoFracDigits_format2Fin q)
  | inf => exact Or.inr (Or.inl rfl)
  | negInf => exact Or.inr (Or.inr (Or.inl rfl))
  | nan => exact Or.inr (Or.inr (Or.inr rfl))

/-- C8 (amended): every result produced by an operator application —
`calc_binary_operator` with one of the six known binary operators, or
`calc_unary_operator` with `POS`/`NEG` — is either a numeral with
exactly two fractional digits or one of the non-finite displays `inf`,
`-inf`, `NaN` (the source formats every result with a two-decimal
format specifier, which Rust renders without fractional digits on
non-finite floats); in particular `1/3` yields `0.33`, and division by
zero follows IEEE semantics: `1/0` evaluates successfully and displays
`inf`.  (A successful expression consisting of a bare float literal is
instead displayed verbatim — the counterexample's first case.) -/
theorem C8_two_decimals :
    (∀ (op : Lexeme) (t1 t2 : Token) (s : Lexeme),
      (op = ['+'] ∨ op = ['-'] ∨ op = ['/'] ∨ op = ['*'] ∨
        op = ['<','<'] ∨ op = ['>','>']) →
      calc_binary_operator op t1 t2 = some s →
      (hasTwoFracDigits s = true ∨ s = ['i','n','f'] ∨
        s = ['-','i','n','f'] ∨ s = ['N','a','N'])) ∧
    (∀ (op : Lexeme) (t : Token) (s : Lexeme),
      (op = ['P','O','S'] ∨ op = ['N','E','G']) →
      calc_unary_operator op t = some s →
      (hasTwoFracDigits s = true ∨ s = ['i','n','f'] ∨
        s = ['-','i','n','f'] ∨ s = ['N','a','N'])) ∧
    process ['1','/','3'] = .ok ['0','.','3','3'] ∧
    process ['1','/','0'] = .ok ['i','n','f'] := by
  refine ⟨?_, ?_, by decide, by decide⟩
  · intro op t1 t2 s hop hs
    cases h1 : parseF t1.2 with
    | none => simp [calc_binary_operator, h1] at hs
    | some v1 =>
        cases h2 : parseF t2.2 with
        | none => simp [calc_binary_operator, h1, h2] at hs
        | some v2 =>
            rcases hop with rfl | rfl | rfl | rfl | rfl | rfl <;>
              · simp [calc_binary_operator, h1, h2] at hs
                rw [← hs]
                exact format2_shape _
  · intro op t s hop hs
    cases h : parseF t.2 with
    | none => simp [calc_unary_operator, h] at hs
    | some v =>
        rcases hop with rfl | rfl <;>
          · simp [calc_unary_operator, h] at hs
            rw [← hs]
            exact format2_shape _

/-- C8 (counterexample): the claim as stated fails on the code in two
ways.  First, the expression `2.5` evaluates successfully, but its
displayed result is the literal lexeme `2.5` with ONE fractional digit
— a bare float literal is pushed and returned verbatim, never passing
through the two-decimal formatting.  Second, `1/0` evaluates
successfully (IEEE division by zero yields infinity, as the spec's own
numeric-semantics paragraph says), and the two-decimal format specifier
prints a non-finite float as `inf`, with no fractional digits at
all. -/
theorem C8_counterexample :
    process ['2','.','5'] = .ok ['2','.','5'] ∧
    hasTwoFracDigits ['2','.','5'] = false ∧
    process ['1','/','0'] = .ok ['i','n','f'] ∧
    hasTwoFracDigits ['i','n','f'] = false := by
  decide

/-- C8 (witness): the shape disjunction at a concrete binary
application, `1/3` computed by `calc_binary_operator`. -/
theorem C8_witness :
    hasTwoFracDigits ['0','.','3','3'] = true ∨
      (['0','.','3','3'] : Lexeme) = ['i','n','f'] ∨
      (['0','.','3','3'] : Lexeme) = ['-','i','n','f'] ∨
      (['0','.','3','3'] : Lexeme) = ['N','a','N'] :=
  C8_two_decimals.1 ['/'] (TokenType.NumberInt, ['1'])
    (TokenType.NumberInt, ['3']) ['0','.','3','3']
    (Or.inr (Or.inr (Or.inl rfl))) (by decide)

/-! ## Claim C9 -/

/-- C9: the shift operators truncate both operands to 32-bit signed
integers, shift, and cast the result back.  Generally: for any
nonnegative parsed left operand `q` below 2^30 and right operand `1`,
`<<` discards `q`'s fractional part and doubles the integer part; and
concretely `5.9<<1` yields `10.00` (5.9 truncated to 5, shifted left by
one) and `5.9>>1` yields `2.00`. -/
theorem C9_shift_truncates :
    (∀ (a b : Lexeme) (q : Q) (k1 k2 : TokenType),
      parseF a = some (F.finite q) → 0 ≤ q.num → 0 < q.den →
      q.num < 1073741824 * q.den →
      parseF b = some (F.finite (Q.ofInt 1)) →
      calc_binary_operator ['<','<'] (k1, a) (k2, b) =
        some (format2 (F.finite (Q.ofInt (2 * qfloor q))))) ∧
    process ['5','.','9','<','<','1'] = .ok ['1','0','.','0','0'] ∧
    process ['5','.','9','>','>','1'] = .ok ['2','.','0','0'] := by
  refine ⟨?_, by decide, by decide⟩
  intro a b q k1 k2 ha hnum hden hlt hb
  obtain ⟨m, hm⟩ := Int.eq_ofNat_of_zero_le hnum
  obtain ⟨n, hn⟩ := Int.eq_ofNat_of_zero_le (le_of_lt hden)
  have hn0 : 0 < n := by omega
  have hmn : m < 1073741824 * n := by omega
  have hfl : qfloor q = ((m / n : Nat) : Int) := by
    unfold qfloor
    rw [hm, hn]
    exact (Int.ofNat_fdiv m n).symm
  have hq30 : m / n < 1073741824 := by
    rw [Nat.div_lt_iff_lt_mul hn0]
    omega
  have hcast0 : (0 : Int) ≤ ((m / n : Nat) : Int) := Int.ofNat_nonneg _
  have hcast1 : ((m / n : Nat) : Int) < 1073741824 := by exact_mod_cast hq30
  have htr : truncSat (F.finite q) = qfloor q := by
    simp only [truncSat]
    rw [if_neg (by omega : ¬ q.num < 0)]
    rw [hfl]
    rw [if_neg (by omega), if_neg (by omega)]
  have hcb : calc_binary_operator ['<','<'] (k1, a) (k2, b) =
      some (format2 (F.finite (Q.ofInt
        (wrap32 (truncSat (F.finite q) *
          2 ^ (truncSat (F.finite (Q.ofInt 1)) % 32).toNat))))) := by
    simp [calc_binary_operator, ha, hb]
  have h2 : (truncSat (F.finite (Q.ofInt 1)) % 32).toNat = 1 := by decide
  rw [hcb, h2, pow_one, htr, hfl]
  have hw : wrap32 (((m / n : Nat) : Int) * 2) = ((m / n : Nat) : Int) * 2 := by
    unfold wrap32
    have := hcast0
    have := hcast1
    omega
  rw [hw, Int.mul_comm]

/-- C9 (witness): the general truncate-and-shift statement applied at
`5.9 << 1` (parsed left operand 59/10). -/
theorem C9_witness :
    calc_binary_operator ['<','<'] (TokenType.NumberFloat, ['5','.','9'])
        (TokenType.NumberInt, ['1']) =
      some (format2 (F.finite (Q.ofInt (2 * qfloor ⟨59, 10⟩)))) :=
  C9_shift_truncates.1 ['5','.','9'] ['1'] ⟨59, 10⟩
    TokenType.NumberFloat TokenType.NumberInt (by decide) (by decide) (by decide)
    (by decide) (by decide)

/-! ## Claim C10 -/

theorem find2_shape : ∀ s text, find2 s = some text →
    text = ['<','<'] ∨ text = ['>','>'] := by
  intro s
  induction s with
  | nil => intro text h; simp [find2] at h
  | cons c1 rest ih =>
      intro text h
      cases rest with
      | nil => simp [find2] at h
      | cons c2 rest2 =>
          rw [find2] at h
          split_ifs at h with h1 h2
          · simp only [Option.some.injEq] at h
            exact Or.inl h.symm
          · simp only [Option.some.injEq] at h
            exact Or.inr h.symm
          · exact ih text h

theorem binCaptures_shape : ∀ s text, binCaptures s = some text →
    text = ['+'] ∨ text = ['-'] ∨ text = ['/'] ∨ text = ['*'] ∨
      text = ['<','<'] ∨ text = ['>','>'] := by
  intro s text h
  cases s with
  | nil => simp [binCaptures] at h
  | cons c rest =>
      rw [binCaptures] at h
      split_ifs at h with hc
      · simp only [Option.some.injEq] at h
        subst h
        simp only [Bool.or_eq_true, decide_eq_true_eq] at hc
        rcases hc with ((rfl | rfl) | rfl) | rfl <;> simp
      · rcases find2_shape (c :: rest) text h with h6 | h6 <;> simp [h6]

theorem lexStep_no_percent (tt : TokenType) (acc : List Token) (s : List Char)
    (acc2 : List Token) (s2 : List Char)
    (h : lexStep tt (acc, s) = some (acc2, s2))
    (hacc : ∀ t ∈ acc, t.2 ≠ ['%']) : ∀ t ∈ acc2, t.2 ≠ ['%'] := by
  have push : ∀ (tok : Token), tok.2 ≠ ['%'] → acc2 = acc ++ [tok] →
      ∀ t ∈ acc2, t.2 ≠ ['%'] := by
    rintro tok htok rfl t ht
    rcases List.mem_append.1 ht with hm | hm
    · exact hacc t hm
    · simp only [List.mem_singleton] at hm
      subst hm
      exact htok
  have same : acc2 = acc → ∀ t ∈ acc2, t.2 ≠ ['%'] := by
    rintro rfl
    exact hacc
  cases tt with
  | OpenedParenthesis =>
      cases s with
      | nil =>
          simp only [lexStep, Option.some.injEq, Prod.mk.injEq] at h
          exact same h.1.symm
      | cons c rest =>
          simp only [lexStep] at h
          split_ifs at h with hc <;>
            simp only [Option.some.injEq, Prod.mk.injEq] at h
          · exact push _ (by decide) h.1.symm
          · exact same h.1.symm
  | ClosedParenthesis =>
      cases s with
      | nil =>
          simp only [lexStep, Option.some.injEq, Prod.mk.injEq] at h
          exact same h.1.symm
      | cons c rest =>
          simp only [lexStep] at h
          split_ifs at h with hc <;>
            simp only [Option.some.injEq, Prod.mk.injEq] at h
          · exact push _ (by decide) h.1.symm
          · exact same h.1.symm
  | Function =>
      cases htk : s.takeWhile Char.isAlpha with
      | nil =>
          simp only [lexStep, htk, Option.some.injEq, Prod.mk.injEq] at h
          exact same h.1.symm
      | cons c cs =>
          simp only [lexStep, htk, Option.some.injEq, Prod.mk.injEq] at h
          refine push (TokenType.Function, c :: cs) ?_ h.1.symm
          intro hpc
          simp only at hpc
          have hcmem : c ∈ s.takeWhile Char.isAlpha := by
            rw [htk]; simp
          have := List.mem_takeWhile_imp hcmem
          rw [show c = '%' by simpa using congrArg List.head? hpc] at this
          exact absurd this (by decide)
  | BinaryOperator =>
      cases hbc : binCaptures s with
      | none =>
          simp only [lexStep, hbc, Option.some.injEq, Prod.mk.injEq] at h
          exact same h.1.symm
      | some text =>
          simp only [lexStep, hbc] at h
          split_ifs at h with hperm hpre
          · simp only [Option.some.injEq, Prod.mk.injEq] at h
            refine push (TokenType.BinaryOperator, text) ?_ h.1.symm
            intro hpc
            simp only at hpc
            subst hpc
            rcases binCaptures_shape s ['%'] hbc with h6 | h6 | h6 | h6 | h6 | h6 <;>
              simp at h6
          · simp only [Option.some.injEq, Prod.mk.injEq] at h
            exact same h.1.symm
  | UnaryOperator =>
      cases s with
      | nil =>
          simp only [lexStep, Option.some.injEq, Prod.mk.injEq] at h
          exact same h.1.symm
      | cons c rest =>
          simp only [lexStep] at h
          split_ifs at h with hc1 hc2 <;>
            simp only [Option.some.injEq, Prod.mk.injEq] at h
          · exact push _ (by decide) h.1.symm
          · exact push _ (by decide) h.1.symm
          · exact same h.1.symm
  | NumberFloat =>
      cases htk : s.takeWhile Char.isDigit with
      | nil =>
          simp only [lexStep, htk, Option.some.injEq, Prod.mk.injEq] at h
          exact same h.1.symm
      | cons i0 ip =>
          cases hdr : s.dropWhile Char.isDigit with
          | nil =>
              simp only [lexStep, htk, hdr, Option.some.injEq, Prod.mk.injEq] at h
              exact same h.1.symm
          | cons c r2 =>
              simp only [lexStep, htk, hdr] at h
              split_ifs at h with hc
              · cases hfp : r2.takeWhile Char.isDigit with
                | nil =>
                    rw [hfp] at h
                    simp only [Option.some.injEq, Prod.mk.injEq] at h
                    exact same h.1.symm
                | cons f0 fp =>
                    rw [hfp] at h
                    simp only [Option.some.injEq, Prod.mk.injEq] at h
                    refine push (TokenType.NumberFloat,
                      (i0 :: ip) ++ '.' :: f0 :: fp) ?_ h.1.symm
                    intro hpc
                    simp at hpc
              · simp only [Option.some.injEq, Prod.mk.injEq] at h
                exact same h.1.symm
  | NumberInt =>
      cases htk : s.takeWhile Char.isDigit with
      | nil =>
          simp only [lexStep, htk, Option.some.injEq, Prod.mk.injEq] at h
          exact same h.1.symm
      | cons c cs =>
          simp only [lexStep, htk, Option.some.injEq, Prod.mk.injEq] at h
          refine push (TokenType.NumberInt, c :: cs) ?_ h.1.symm
          intro hpc
          simp only at hpc
          have hcmem : c ∈ s.takeWhile Char.isDigit := by
            rw [htk]; simp
          have := List.mem_takeWhile_imp hcmem
          rw [show c = '%' by simpa using congrArg List.head? hpc] at this
          exact absurd this (by decide)
  | ArgumentSeparator =>
      cases s with
      | nil =>
          simp only [lexStep, Option.some.injEq, Prod.mk.injEq] at h
          exact same h.1.symm
      | cons c rest =>
          simp only [lexStep] at h
          split_ifs at h with hc <;>
            simp only [Option.some.injEq, Prod.mk.injEq] at h
          · exact push _ (by decide) h.1.symm
          · exact same h.1.symm
  | Whitespaces =>
      cases htk : s.takeWhile isWsChar with
      | nil =>
          simp only [lexStep, htk, Option.some.injEq, Prod.mk.injEq] at h
          exact same h.1.symm
      | cons c cs =>
          simp only [lexStep, htk, Option.some.injEq, Prod.mk.injEq] at h
          refine push (TokenType.Whitespaces, c :: cs) ?_ h.1.symm
          intro hpc
          simp only at hpc
          have hcmem : c ∈ s.takeWhile isWsChar := by
            rw [htk]; simp
          have := List.mem_takeWhile_imp hcmem
          rw [show c = '%' by simpa using congrArg List.head? hpc] at this
          exact absurd this (by decide)

theorem foldSteps_none (tags : List TokenType) :
    tags.foldl (fun o tt => o.bind (lexStep tt)) none = none := by
  induction tags with
  | nil => rfl
  | cons tt tags ih => simpa using ih

theorem foldSteps_no_percent : ∀ (tags : List TokenType) (st st2 : LexState),
    tags.foldl (fun o tt => o.bind (lexStep tt)) (some st) = some st2 →
    (∀ t ∈ st.1, t.2 ≠ ['%']) → ∀ t ∈ st2.1, t.2 ≠ ['%'] := by
  intro tags
  induction tags with
  | nil =>
      intro st st2 h hst
      simp only [List.foldl_nil, Option.some.injEq] at h
      subst h
      exact hst
  | cons tt tags ih =>
      intro st st2 h hst
      rw [List.foldl_cons] at h
      cases hstep : lexStep tt st with
      | none =>
          rw [show (some st).bind (lexStep tt) = none by simp [hstep]] at h
          rw [foldSteps_none] at h
          simp at h
      | some st1 =>
          rw [show (some st).bind (lexStep tt) = some st1 by simp [hstep]] at h
          refine ih st1 st2 h ?_
          obtain ⟨acc1, s1⟩ := st1
          obtain ⟨acc0, s0⟩ := st
          exact lexStep_no_percent tt acc0 s0 acc1 s1 hstep hst

theorem tokerizeLoop_no_percent : ∀ (fuel : Nat) (acc : List Token) (s : List Char)
    (res : List Token), tokerizeLoop fuel (acc, s) = .ok res →
    (∀ t ∈ acc, t.2 ≠ ['%']) → ∀ t ∈ res, t.2 ≠ ['%'] := by
  intro fuel
  induction fuel with
  | zero => intro acc s res h _; simp [tokerizeLoop] at h
  | succ f ih =>
      intro acc s res h hacc
      cases s with
      | nil =>
          simp only [tokerizeLoop, PRes.ok.injEq] at h
          subst h
          exact hacc
      | cons c rest =>
          rw [tokerizeLoop] at h
          split at h
          case h_1 =>
            simp at h
          case h_2 =>
            rename_i acc2 s2 hpass
            split_ifs at h with hlen
            exact ih acc2 s2 res h (foldSteps_no_percent KNOWNS_TOKENS_ORDER
              (acc, c :: rest) (acc2, s2) hpass hacc)

theorem tokerize_no_percent (s : List Char) (res : List Token)
    (h : tokerize s = .ok res) : ∀ t ∈ res, t.2 ≠ ['%'] :=
  tokerizeLoop_no_percent (s.length + 1) [] s res h (by simp)

/-- C10 (amended): the operator table contains a `%` entry of rank 2,
left-associative; the lexer has no pattern matching the character `%`
itself, so tokenizing `2%3` fails with the unrecognized-character error
carrying `%` (though NOT every scan position starting with `%` errors
that way — see the counterexample); no token with lexeme `%` is ever
produced by a successful scan, so no `%` operator reaches the converter
or evaluator; and the evaluator has no `%` arithmetic case (its default
arm yields the empty string). -/
theorem C10_percent_unlexable :
    get_op_info ['%'] = some (2, .LeftAssociation) ∧
    tokerize ['2','%','3'] = .err '%' ∧
    process ['2','%','3'] = .err (.lexErr '%') ∧
    (∀ (s : List Char) (res : List Token), tokerize s = .ok res →
      ∀ t ∈ res, t.2 ≠ ['%']) ∧
    (∀ (t1 t2 : Token) (v1 v2 : F), parseF t1.2 = some v1 → parseF t2.2 = some v2 →
      calc_binary_operator ['%'] t1 t2 = some []) := by
  refine ⟨by decide, by decide, by decide, tokerize_no_percent, ?_⟩
  intro t1 t2 v1 v2 h1 h2
  simp [calc_binary_operator, h1, h2]

/-- C10 (counterexample): the universally quantified part of the claim
("any scan position starting with `%` produces an UnrecognizedCharacter
error for `%`") is false: scanning `1%2<<3` reaches the remainder
`%2<<3` after the integer `1`, where the unanchored `<<` alternative of
the binary-operator pattern matches at a non-prefix position behind a
permissible token, and the scan panics instead of returning the `%`
error. -/
theorem C10_counterexample :
    tokerize ['1','%','2','<','<','3'] = .crash ∧
    process ['1','%','2','<','<','3'] = .crash := by
  decide

/-- C10 (witness): the lexeme invariant applied to the concrete
successful scan of `2+3`. -/
theorem C10_witness :
    ∀ t ∈ [(TokenType.NumberInt, ['2']), (TokenType.BinaryOperator, ['+']),
      (TokenType.NumberInt, ['3'])], t.2 ≠ ['%'] :=
  C10_percent_unlexable.2.2.2.1 ['2','+','3']
    [(TokenType.NumberInt, ['2']), (TokenType.BinaryOperator, ['+']),
      (TokenType.NumberInt, ['3'])] (by decide)
